import Mathlib

/-!
Shallow embedding of the order-book / TWAP program (akuz/akuz-cpp,
source file modelled here: the single translation unit defining
`OrderBook`, `TWAP` and `main`).

Modelling conventions:
* C++ `double` prices are modelled as `ℚ`; the quiet-NaN "no price"
  sentinel is modelled as `none` in `Option ℚ` (the code only ever
  tests NaN-ness with `isnan` and propagates NaN through arithmetic,
  which the `Option` model reproduces at the single place it can
  arise, the running-average update).
* C++ `int` times, order ids and counts are modelled as `Int`
  (the code comments note that the values stay far below overflow).
* A C++ `std::map` is modelled as an association list with unique
  keys; uniqueness is the type invariant of `std::map` and appears
  as a `Nodup` well-formedness predicate where a claim needs it.
  `std::map::rbegin` (largest key) is modelled by a fold computing
  the maximum key.
-/

namespace AkuzCpp

/-- Association-list lookup: value of the first entry whose key is `k`. -/
def alookup {α β : Type} [DecidableEq α] (k : α) : List (α × β) → Option β
  | [] => none
  | e :: t => if e.1 = k then some e.2 else alookup k t

/-- Association-list update: replace the value of the first entry whose key is `k`. -/
def aupdate {α β : Type} [DecidableEq α] (k : α) (v : β) : List (α × β) → List (α × β)
  | [] => []
  | e :: t => if e.1 = k then (e.1, v) :: t else e :: aupdate k v t

/-- Association-list erase: remove the first entry whose key is `k`. -/
def aerase {α β : Type} [DecidableEq α] (k : α) : List (α × β) → List (α × β)
  | [] => []
  | e :: t => if e.1 = k then t else e :: aerase k t

/-- The `OrderBook` class: `order_price_map_` maps order id to price,
`price_count_map_` counts live orders at each price. -/
structure OrderBook where
  order_price_map : List (Int × ℚ)
  price_count_map : List (ℚ × Int)
deriving DecidableEq

/-- The freshly constructed `OrderBook` (both maps empty). -/
def OrderBook.empty : OrderBook := ⟨[], []⟩

/-- `OrderBook::insert_order`: `std::map::insert` fails when the id is
already present (the method returns with no effect); otherwise the
order is added and the count at its price is created at 1 or incremented. -/
def OrderBook.insert_order (b : OrderBook) (order_id : Int) (price : ℚ) : OrderBook :=
  match alookup order_id b.order_price_map with
  | some _ => b
  | none =>
    let orders := (order_id, price) :: b.order_price_map
    match alookup price b.price_count_map with
    | none => ⟨orders, (price, 1) :: b.price_count_map⟩
    | some c => ⟨orders, aupdate price (c + 1) b.price_count_map⟩

/-- `OrderBook::erase_order`: a missing id returns with no effect;
otherwise the order is removed, the count at its price decremented and
the count entry erased when it drops to `<= 0`.  The C++ code
dereferences the `find` result on `price_count_map_` unconditionally;
a missing price entry is unreachable under the dual-map invariant, and
the model leaves the count map unchanged in that dead branch. -/
def OrderBook.erase_order (b : OrderBook) (order_id : Int) : OrderBook :=
  match alookup order_id b.order_price_map with
  | none => b
  | some price =>
    let orders := aerase order_id b.order_price_map
    match alookup price b.price_count_map with
    | none => ⟨orders, b.price_count_map⟩
    | some c =>
      if c - 1 ≤ 0 then ⟨orders, aerase price b.price_count_map⟩
      else ⟨orders, aupdate price (c - 1) b.price_count_map⟩

/-- Maximum key of an association list, modelling `std::map::rbegin`
on a map sorted by key (`none` on the empty map, as the code returns NaN). -/
def maxKey {β : Type} : List (ℚ × β) → Option ℚ
  | [] => none
  | e :: t =>
    match maxKey t with
    | none => some e.1
    | some q => some (max e.1 q)

/-- `OrderBook::max_price`: the largest key of `price_count_map_`,
or the NaN sentinel (`none`) when the map is empty. -/
def OrderBook.max_price (b : OrderBook) : Option ℚ := maxKey b.price_count_map

/-- The `TWAP` class state: `last_price_`, `last_time_`, `avg_price_`,
`total_time_`. -/
structure TWAP where
  last_price : Option ℚ
  last_time : Int
  avg_price : Option ℚ
  total_time : Int
deriving DecidableEq

/-- The freshly constructed `TWAP`: both prices NaN, both times 0. -/
def TWAP.init : TWAP := ⟨none, 0, none, 0⟩

/-- `TWAP::next_price`: when the previously stored price is not NaN,
fold the interval since `last_time_` into the running average
(`avg_price_ / new_total * total + last_price_ / new_total * add` when
`total_time_ > 0`, else restart at `last_price_`); then unconditionally
store the new sample.  A NaN `avg_price_` would stay NaN through the
C++ arithmetic, which the inner `match` reproduces. -/
def TWAP.next_price (s : TWAP) (time : Int) (price : Option ℚ) : TWAP :=
  let s1 :=
    match s.last_price with
    | none => s
    | some lp =>
      let add_time := time - s.last_time
      if s.total_time > 0 then
        let new_total := s.total_time + add_time
        { s with
          avg_price :=
            match s.avg_price with
            | none => none
            | some a =>
              some (a / (new_total : ℚ) * (s.total_time : ℚ)
                    + lp / (new_total : ℚ) * (add_time : ℚ)),
          total_time := new_total }
      else
        { s with avg_price := some lp, total_time := add_time }
  { s1 with last_price := price, last_time := time }

/-- Run a `TWAP` from a given state over a list of `(time, price)` samples. -/
def TWAP.runFrom (s : TWAP) : List (Int × Option ℚ) → TWAP
  | [] => s
  | x :: xs => TWAP.runFrom (s.next_price x.1 x.2) xs

/-- Run a fresh `TWAP` over a list of `(time, price)` samples. -/
def runTWAP (samples : List (Int × Option ℚ)) : TWAP :=
  TWAP.runFrom TWAP.init samples

/-- One `OrderBook` mutation, as issued by the driver. -/
inductive BookOp : Type
  | insert (order_id : Int) (price : ℚ)
  | erase (order_id : Int)
deriving DecidableEq

/-- Apply one mutation to an `OrderBook`. -/
def applyOp (b : OrderBook) : BookOp → OrderBook
  | .insert order_id price => b.insert_order order_id price
  | .erase order_id => b.erase_order order_id

/-- Apply a sequence of mutations to an `OrderBook`, first element first. -/
def applyOps (b : OrderBook) : List BookOp → OrderBook
  | [] => b
  | op :: ops => applyOps (applyOp b op) ops

/-- Number of entries of an order-price list whose price is `p`
(as an `Int`, matching the C++ count type). -/
def cntAt (p : ℚ) : List (Int × ℚ) → Int
  | [] => 0
  | e :: t => (if e.2 = p then 1 else 0) + cntAt p t

/-- Sum of the counts stored in a price-count list. -/
def sumCounts : List (ℚ × Int) → Int
  | [] => 0
  | e :: t => e.2 + sumCounts t

/-- Maximum of a list of rationals (`none` on the empty list). -/
def listMaxQ : List ℚ → Option ℚ
  | [] => none
  | q :: t =>
    match listMaxQ t with
    | none => some q
    | some m => some (max q m)

/-- Well-formedness of an `OrderBook` state: both association lists have
unique keys.  This is the type invariant of the two `std::map` fields,
satisfied by every state the C++ object can be in. -/
def OrderBook.WF (b : OrderBook) : Prop :=
  (b.order_price_map.map Prod.fst).Nodup ∧ (b.price_count_map.map Prod.fst).Nodup

/-- The dual-map consistency invariant: unique keys in both maps, each
price-count entry stores exactly the (positive) number of live orders at
that price, absent prices have zero live orders, and the counts sum to
the number of live orders. -/
def OrderBook.Consistent (b : OrderBook) : Prop :=
  (b.order_price_map.map Prod.fst).Nodup ∧
  (b.price_count_map.map Prod.fst).Nodup ∧
  (∀ p : ℚ, alookup p b.price_count_map =
    if cntAt p b.order_price_map = 0 then none else some (cntAt p b.order_price_map)) ∧
  sumCounts b.price_count_map = (b.order_price_map.length : Int)

/-- The `(time, price)` sample sequence of the golden trace in the spec
(section 8), with `none` for the NO_PRICE sentinel. -/
def goldenSamples : List (Int × Option ℚ) :=
  [(1000, none), (2000, some 10), (2200, some 13),
   (2400, some 13), (2500, some 10), (4000, none)]

/-- Times of a list of samples are non-decreasing, starting at or after `t0`. -/
def monoFrom (t0 : Int) : List (Int × Option ℚ) → Prop
  | [] => True
  | x :: xs => t0 ≤ x.1 ∧ monoFrom x.1 xs

/-- A price sample is within `[lo, hi]` when it is a valid number
(the sentinel is unconstrained). -/
def priceOk (lo hi : ℚ) : Option ℚ → Prop
  | none => True
  | some q => lo ≤ q ∧ q ≤ hi

/-- Bound invariant for the TWAP state: non-negative elapsed time, and
both the running average and the stored last price within `[lo, hi]`
whenever they are valid numbers. -/
def InvB (lo hi : ℚ) (s : TWAP) : Prop :=
  0 ≤ s.total_time ∧ priceOk lo hi s.avg_price ∧ priceOk lo hi s.last_price

/-- Constant-price invariant for the TWAP state: the stored last price
and the running average both equal `p`, and elapsed time is non-negative. -/
def InvConst (p : ℚ) (s : TWAP) : Prop :=
  s.last_price = some p ∧ s.avg_price = some p ∧ 0 ≤ s.total_time

section AssocLemmas

variable {α β : Type} [DecidableEq α]

theorem alookup_eq_none {k : α} {l : List (α × β)} :
    alookup k l = none ↔ k ∉ l.map Prod.fst := by
  induction l with
  | nil => simp [alookup]
  | cons e t ih =>
    show (if e.1 = k then some e.2 else alookup k t) = none ↔ _
    simp only [List.map_cons, List.mem_cons, not_or]
    by_cases h : e.1 = k
    · subst h
      simp
    · rw [if_neg h, ih]
      exact ⟨fun hk => ⟨fun hke => h hke.symm, hk⟩, fun hk => hk.2⟩

theorem map_fst_aupdate (k : α) (v : β) (l : List (α × β)) :
    (aupdate k v l).map Prod.fst = l.map Prod.fst := by
  induction l with
  | nil => rfl
  | cons e t ih =>
    by_cases h : e.1 = k <;> simp [aupdate, h, ih]

theorem alookup_aupdate_self {k : α} {v : β} {l : List (α × β)} {c : β}
    (h : alookup k l = some c) : alookup k (aupdate k v l) = some v := by
  induction l with
  | nil => simp [alookup] at h
  | cons e t ih =>
    by_cases he : e.1 = k
    · simp [aupdate, he, alookup]
    · simp [alookup, he] at h
      simp [aupdate, he, alookup, ih h]

theorem alookup_aupdate_ne {k k' : α} {v : β} {l : List (α × β)} (h : k' ≠ k) :
    alookup k' (aupdate k v l) = alookup k' l := by
  induction l with
  | nil => rfl
  | cons e t ih =>
    show alookup k' (if e.1 = k then (e.1, v) :: t else e :: aupdate k v t)
      = if e.1 = k' then some e.2 else alookup k' t
    by_cases he : e.1 = k
    · rw [if_pos he]
      show (if e.1 = k' then some v else alookup k' t)
        = if e.1 = k' then some e.2 else alookup k' t
      have hne : ¬ e.1 = k' := by rw [he]; exact fun hk => h hk.symm
      rw [if_neg hne, if_neg hne]
    · rw [if_neg he]
      show (if e.1 = k' then some e.2 else alookup k' (aupdate k v t))
        = if e.1 = k' then some e.2 else alookup k' t
      rw [ih]

theorem map_fst_aerase_sublist (k : α) (l : List (α × β)) :
    ((aerase k l).map Prod.fst).Sublist (l.map Prod.fst) := by
  induction l with
  | nil => simp [aerase]
  | cons e t ih =>
    by_cases h : e.1 = k
    · rw [show aerase k (e :: t) = t from if_pos h]
      simp
    · rw [show aerase k (e :: t) = e :: aerase k t from if_neg h]
      simp only [List.map_cons]
      exact List.Sublist.cons₂ e.1 ih

theorem alookup_aerase_self {k : α} {l : List (α × β)}
    (h : (l.map Prod.fst).Nodup) : alookup k (aerase k l) = none := by
  induction l with
  | nil => rfl
  | cons e t ih =>
    by_cases he : e.1 = k
    · simp [aerase, he]
      rw [alookup_eq_none]
      subst he
      exact (List.nodup_cons.mp h).1
    · simp [aerase, he, alookup, ih (List.nodup_cons.mp h).2]

theorem alookup_aerase_ne {k k' : α} {l : List (α × β)} (h : k' ≠ k) :
    alookup k' (aerase k l) = alookup k' l := by
  induction l with
  | nil => rfl
  | cons e t ih =>
    show alookup k' (if e.1 = k then t else e :: aerase k t)
      = if e.1 = k' then some e.2 else alookup k' t
    by_cases he : e.1 = k
    · rw [if_pos he]
      have hne : ¬ e.1 = k' := by rw [he]; exact fun hk => h hk.symm
      rw [if_neg hne]
    · rw [if_neg he]
      show (if e.1 = k' then some e.2 else alookup k' (aerase k t))
        = if e.1 = k' then some e.2 else alookup k' t
      rw [ih]

theorem sumCounts_aupdate {k : ℚ} {v : Int} {l : List (ℚ × Int)} {c : Int}
    (h : alookup k l = some c) :
    sumCounts (aupdate k v l) = sumCounts l - c + v := by
  induction l with
  | nil => simp [alookup] at h
  | cons e t ih =>
    by_cases he : e.1 = k
    · simp [alookup, he] at h
      simp [aupdate, he, sumCounts, h]
      ring
    · simp [alookup, he] at h
      simp [aupdate, he, sumCounts, ih h]
      ring

theorem sumCounts_aerase {k : ℚ} {l : List (ℚ × Int)} {c : Int}
    (h : alookup k l = some c) :
    sumCounts (aerase k l) = sumCounts l - c := by
  induction l with
  | nil => simp [alookup] at h
  | cons e t ih =>
    by_cases he : e.1 = k
    · simp [alookup, he] at h
      simp [aerase, he, sumCounts, h]
    · simp [alookup, he] at h
      simp [aerase, he, sumCounts, ih h]
      ring

theorem length_aerase {k : α} {l : List (α × β)} {v : β}
    (h : alookup k l = some v) :
    ((aerase k l).length : Int) = (l.length : Int) - 1 := by
  induction l with
  | nil => simp [alookup] at h
  | cons e t ih =>
    by_cases he : e.1 = k
    · simp [aerase, he]
    · simp [alookup, he] at h
      simp [aerase, he, ih h]

theorem cntAt_nonneg (p : ℚ) (l : List (Int × ℚ)) : 0 ≤ cntAt p l := by
  induction l with
  | nil => simp [cntAt]
  | cons e t ih =>
    by_cases h : e.2 = p <;> simp [cntAt, h] <;> omega

theorem cntAt_cons (p : ℚ) (e : Int × ℚ) (t : List (Int × ℚ)) :
    cntAt p (e :: t) = (if e.2 = p then 1 else 0) + cntAt p t := rfl

theorem cntAt_aerase {i : Int} {p : ℚ} {l : List (Int × ℚ)}
    (h : alookup i l = some p) (q : ℚ) :
    cntAt q (aerase i l) = cntAt q l - (if p = q then 1 else 0) := by
  induction l with
  | nil => simp [alookup] at h
  | cons e t ih =>
    by_cases he : e.1 = i
    · simp [alookup, he] at h
      subst h
      by_cases hq : e.2 = q <;> simp [aerase, he, cntAt, hq]
    · simp [alookup, he] at h
      by_cases hq : e.2 = q
      · simp [aerase, he, cntAt, hq, ih h]
        ring
      · simp [aerase, he, cntAt, hq, ih h]

theorem cntAt_pos_of_alookup {i : Int} {p : ℚ} {l : List (Int × ℚ)}
    (h : alookup i l = some p) : 1 ≤ cntAt p l := by
  induction l with
  | nil => simp [alookup] at h
  | cons e t ih =>
    by_cases he : e.1 = i
    · simp [alookup, he] at h
      have := cntAt_nonneg p t
      simp [cntAt, h]
      omega
    · simp [alookup, he] at h
      have := ih h
      by_cases hq : e.2 = p <;> simp [cntAt, hq] <;> omega

theorem cntAt_ne_zero_iff (q : ℚ) (l : List (Int × ℚ)) :
    cntAt q l ≠ 0 ↔ q ∈ l.map Prod.snd := by
  induction l with
  | nil => simp [cntAt]
  | cons e t ih =>
    show (if e.2 = q then 1 else 0) + cntAt q t ≠ 0 ↔ q ∈ (e.2 :: t.map Prod.snd)
    rw [List.mem_cons]
    by_cases h : e.2 = q
    · rw [if_pos h]
      have h1 := cntAt_nonneg q t
      exact ⟨fun _ => Or.inl h.symm, fun _ => by omega⟩
    · rw [if_neg h, zero_add, ih]
      constructor
      · exact fun hc => Or.inr hc
      · rintro (hq | hm)
        · exact absurd hq.symm h
        · exact hm

end AssocLemmas

theorem consistent_empty : OrderBook.empty.Consistent := by
  refine ⟨List.nodup_nil, List.nodup_nil, fun p => ?_, rfl⟩
  simp [OrderBook.empty, alookup, cntAt]

theorem consistent_insert (b : OrderBook) (h : b.Consistent) (i : Int) (p : ℚ) :
    (b.insert_order i p).Consistent := by
  obtain ⟨hno, hnc, hcnt, hsum⟩ := h
  cases ho : alookup i b.order_price_map with
  | some q =>
    have hb : b.insert_order i p = b := by simp [OrderBook.insert_order, ho]
    rw [hb]
    exact ⟨hno, hnc, hcnt, hsum⟩
  | none =>
    have hinotin : i ∉ b.order_price_map.map Prod.fst := alookup_eq_none.mp ho
    cases hp : alookup p b.price_count_map with
    | none =>
      have hcnt0 : cntAt p b.order_price_map = 0 := by
        have hh := hcnt p
        rw [hp] at hh
        by_contra hne
        rw [if_neg hne] at hh
        exact Option.noConfusion hh
      have hpnotin : p ∉ b.price_count_map.map Prod.fst := alookup_eq_none.mp hp
      have hb : b.insert_order i p
          = ⟨(i, p) :: b.order_price_map, (p, 1) :: b.price_count_map⟩ := by
        simp [OrderBook.insert_order, ho, hp]
      rw [hb]
      refine ⟨?_, ?_, fun q => ?_, ?_⟩
      · exact List.nodup_cons.mpr ⟨hinotin, hno⟩
      · exact List.nodup_cons.mpr ⟨hpnotin, hnc⟩
      · show (if p = q then some 1 else alookup q b.price_count_map)
          = if cntAt q ((i, p) :: b.order_price_map) = 0
            then none else some (cntAt q ((i, p) :: b.order_price_map))
        rw [cntAt_cons]
        by_cases hpq : p = q
        · subst hpq
          rw [if_pos rfl, if_pos rfl, hcnt0]
          rw [if_neg (by omega)]
          norm_num
        · rw [if_neg hpq, if_neg hpq, zero_add]
          exact hcnt q
      · show 1 + sumCounts b.price_count_map = (((i, p) :: b.order_price_map).length : Int)
        rw [List.length_cons]
        push_cast
        omega
    | some c =>
      have hcv : c = cntAt p b.order_price_map := by
        have hh := hcnt p
        rw [hp] at hh
        by_cases hz : cntAt p b.order_price_map = 0
        · rw [if_pos hz] at hh
          exact Option.noConfusion hh
        · rw [if_neg hz] at hh
          exact (Option.some.injEq _ _ ▸ hh)
      have hcpos : 0 ≤ c := hcv ▸ cntAt_nonneg p b.order_price_map
      have hb : b.insert_order i p
          = ⟨(i, p) :: b.order_price_map, aupdate p (c + 1) b.price_count_map⟩ := by
        simp [OrderBook.insert_order, ho, hp]
      rw [hb]
      refine ⟨?_, ?_, fun q => ?_, ?_⟩
      · exact List.nodup_cons.mpr ⟨hinotin, hno⟩
      · rw [show (⟨(i, p) :: b.order_price_map, aupdate p (c + 1) b.price_count_map⟩
            : OrderBook).price_count_map = aupdate p (c + 1) b.price_count_map from rfl,
          map_fst_aupdate]
        exact hnc
      · show alookup q (aupdate p (c + 1) b.price_count_map)
          = if cntAt q ((i, p) :: b.order_price_map) = 0
            then none else some (cntAt q ((i, p) :: b.order_price_map))
        rw [cntAt_cons]
        by_cases hpq : p = q
        · subst hpq
          rw [alookup_aupdate_self hp, if_pos rfl]
          rw [if_neg (by omega), ← hcv]
          rw [show (1 : Int) + c = c + 1 from by omega]
        · rw [alookup_aupdate_ne (fun hq => hpq hq.symm), if_neg hpq, zero_add]
          exact hcnt q
      · show sumCounts (aupdate p (c + 1) b.price_count_map)
          = (((i, p) :: b.order_price_map).length : Int)
        rw [sumCounts_aupdate hp, List.length_cons]
        push_cast
        omega

theorem consistent_erase (b : OrderBook) (h : b.Consistent) (i : Int) :
    (b.erase_order i).Consistent := by
  obtain ⟨hno, hnc, hcnt, hsum⟩ := h
  cases ho : alookup i b.order_price_map with
  | none =>
    have hb : b.erase_order i = b := by simp [OrderBook.erase_order, ho]
    rw [hb]
    exact ⟨hno, hnc, hcnt, hsum⟩
  | some p =>
    have h1 := cntAt_pos_of_alookup ho
    have hcp : alookup p b.price_count_map = some (cntAt p b.order_price_map) := by
      have hh := hcnt p
      rw [if_neg (by omega)] at hh
      exact hh
    have hnodups : ((aerase i b.order_price_map).map Prod.fst).Nodup :=
      List.Nodup.sublist (map_fst_aerase_sublist i b.order_price_map) hno
    have hcnte := cntAt_aerase ho
    have hlen : (((aerase i b.order_price_map).length : Int))
        = (b.order_price_map.length : Int) - 1 := length_aerase ho
    by_cases hc1 : cntAt p b.order_price_map - 1 ≤ 0
    · have hb : b.erase_order i
          = ⟨aerase i b.order_price_map, aerase p b.price_count_map⟩ := by
        simp [OrderBook.erase_order, ho, hcp, hc1]
      rw [hb]
      refine ⟨hnodups, ?_, fun q => ?_, ?_⟩
      · exact List.Nodup.sublist (map_fst_aerase_sublist p b.price_count_map) hnc
      · show alookup q (aerase p b.price_count_map)
          = if cntAt q (aerase i b.order_price_map) = 0
            then none else some (cntAt q (aerase i b.order_price_map))
        rw [hcnte q]
        by_cases hpq : p = q
        · subst hpq
          rw [show (if p = p then (1 : Int) else 0) = 1 from if_pos rfl]
          rw [alookup_aerase_self hnc, if_pos (by omega)]
        · rw [alookup_aerase_ne (fun hq => hpq hq.symm), if_neg hpq]
          have hh := hcnt q
          rw [hh]
          rw [show cntAt q b.order_price_map - 0 = cntAt q b.order_price_map from by omega]
      · show sumCounts (aerase p b.price_count_map)
          = ((aerase i b.order_price_map).length : Int)
        rw [sumCounts_aerase hcp, hlen]
        linarith [hsum, h1, hc1]
    · have hb : b.erase_order i
          = ⟨aerase i b.order_price_map,
             aupdate p (cntAt p b.order_price_map - 1) b.price_count_map⟩ := by
        simp [OrderBook.erase_order, ho, hcp, hc1]
      rw [hb]
      refine ⟨hnodups, ?_, fun q => ?_, ?_⟩
      · rw [show (⟨aerase i b.order_price_map,
            aupdate p (cntAt p b.order_price_map - 1) b.price_count_map⟩
            : OrderBook).price_count_map
            = aupdate p (cntAt p b.order_price_map - 1) b.price_count_map from rfl,
          map_fst_aupdate]
        exact hnc
      · show alookup q (aupdate p (cntAt p b.order_price_map - 1) b.price_count_map)
          = if cntAt q (aerase i b.order_price_map) = 0
            then none else some (cntAt q (aerase i b.order_price_map))
        rw [hcnte q]
        by_cases hpq : p = q
        · subst hpq
          rw [show (if p = p then (1 : Int) else 0) = 1 from if_pos rfl]
          rw [alookup_aupdate_self hcp, if_neg (by omega)]
        · rw [alookup_aupdate_ne (fun hq => hpq hq.symm), if_neg hpq]
          have hh := hcnt q
          rw [hh]
          rw [show cntAt q b.order_price_map - 0 = cntAt q b.order_price_map from by omega]
      · show sumCounts (aupdate p (cntAt p b.order_price_map - 1) b.price_count_map)
          = ((aerase i b.order_price_map).length : Int)
        rw [sumCounts_aupdate hcp, hlen]
        linarith [hsum]

theorem consistent_applyOp (b : OrderBook) (h : b.Consistent) (op : BookOp) :
    (applyOp b op).Consistent := by
  cases op with
  | insert i p => exact consistent_insert b h i p
  | erase i => exact consistent_erase b h i

theorem consistent_applyOps (b : OrderBook) (ops : List BookOp) (h : b.Consistent) :
    (applyOps b ops).Consistent := by
  induction ops generalizing b with
  | nil => exact h
  | cons op ops ih => exact ih (applyOp b op) (consistent_applyOp b h op)

theorem next_price_eq_none {s : TWAP} (hlp : s.last_price = none)
    (t : Int) (p : Option ℚ) :
    s.next_price t p = ⟨p, t, s.avg_price, s.total_time⟩ := by
  obtain ⟨slp, slt, sav, stt⟩ := s
  simp only [TWAP.last_price] at hlp
  subst hlp
  rfl

theorem next_price_eq_zero {s : TWAP} {lp : ℚ} (hlp : s.last_price = some lp)
    (hng : ¬ s.total_time > 0) (t : Int) (p : Option ℚ) :
    s.next_price t p = ⟨p, t, some lp, t - s.last_time⟩ := by
  obtain ⟨slp, slt, sav, stt⟩ := s
  simp only [TWAP.last_price] at hlp
  subst hlp
  simp only [TWAP.total_time] at hng
  simp [TWAP.next_price, hng]

theorem next_price_eq_pos {s : TWAP} {lp a : ℚ} (hlp : s.last_price = some lp)
    (ha : s.avg_price = some a) (hpos : s.total_time > 0) (t : Int) (p : Option ℚ) :
    s.next_price t p =
      ⟨p, t,
       some (a / ((s.total_time + (t - s.last_time) : Int) : ℚ) * (s.total_time : ℚ)
         + lp / ((s.total_time + (t - s.last_time) : Int) : ℚ) * ((t - s.last_time : Int) : ℚ)),
       s.total_time + (t - s.last_time)⟩ := by
  obtain ⟨slp, slt, sav, stt⟩ := s
  simp only [TWAP.last_price] at hlp
  subst hlp
  simp only [TWAP.avg_price] at ha
  subst ha
  simp only [TWAP.total_time] at hpos
  simp [TWAP.next_price, hpos]

theorem runFrom_append (s : TWAP) (l : List (Int × Option ℚ)) (x : Int × Option ℚ) :
    TWAP.runFrom s (l ++ [x]) = (TWAP.runFrom s l).next_price x.1 x.2 := by
  induction l generalizing s with
  | nil => rfl
  | cons y ys ih => exact ih (s.next_price y.1 y.2)

theorem next_price_avg_none_iff {s : TWAP} (h : s.avg_price = none → s.total_time = 0)
    (t : Int) (p : Option ℚ) :
    ((s.next_price t p).avg_price = none ↔ s.avg_price = none ∧ s.last_price = none) := by
  cases hlp : s.last_price with
  | none =>
    rw [next_price_eq_none hlp]
    simp
  | some lp =>
    by_cases hpos : s.total_time > 0
    · have hne : s.avg_price ≠ none := fun hn => absurd (h hn) (by omega)
      obtain ⟨a, ha⟩ := Option.ne_none_iff_exists'.mp hne
      rw [next_price_eq_pos hlp ha hpos]
      simp [ha, hlp]
    · rw [next_price_eq_zero hlp hpos]
      simp [hlp]

theorem next_price_inv0 {s : TWAP} (h : s.avg_price = none → s.total_time = 0)
    (t : Int) (p : Option ℚ) :
    (s.next_price t p).avg_price = none → (s.next_price t p).total_time = 0 := by
  intro hn
  rw [next_price_avg_none_iff h t p] at hn
  rw [next_price_eq_none hn.2]
  exact h hn.1

theorem runFrom_inv0 (l : List (Int × Option ℚ)) :
    ∀ s : TWAP, (s.avg_price = none → s.total_time = 0) →
    ((TWAP.runFrom s l).avg_price = none → (TWAP.runFrom s l).total_time = 0) := by
  induction l with
  | nil => exact fun s h => h
  | cons x xs ih => exact fun s h => ih _ (next_price_inv0 h x.1 x.2)

theorem runFrom_last_price (s : TWAP) (l : List (Int × Option ℚ)) :
    (TWAP.runFrom s l).last_price = (l.getLast?.map Prod.snd).getD s.last_price := by
  induction l using List.reverseRecOn with
  | nil => rfl
  | append_singleton ys y _ =>
    rw [runFrom_append, List.getLast?_concat]
    rfl

theorem avg_none_iff (samples : List (Int × Option ℚ)) :
    ((runTWAP samples).avg_price = none ↔ ∀ x ∈ samples.dropLast, x.2 = none) := by
  induction samples using List.reverseRecOn with
  | nil => simp [runTWAP, TWAP.runFrom, TWAP.init]
  | append_singleton l x ih =>
    have hinv := runFrom_inv0 l TWAP.init (fun _ => rfl)
    show (TWAP.runFrom TWAP.init (l ++ [x])).avg_price = none ↔ _
    rw [runFrom_append]
    rw [next_price_avg_none_iff hinv x.1 x.2]
    rw [show (TWAP.runFrom TWAP.init l).avg_price = (runTWAP l).avg_price from rfl]
    rw [ih]
    rw [show (TWAP.runFrom TWAP.init l).last_price = (runTWAP l).last_price from rfl]
    rw [runTWAP, runFrom_last_price, List.dropLast_concat]
    cases l using List.reverseRecOn with
    | nil => simp [TWAP.init]
    | append_singleton ys y _ =>
      rw [List.getLast?_concat, List.dropLast_concat]
      simp only [Option.map_some', Option.getD_some, List.mem_append, List.mem_singleton,
        Prod.forall]
      constructor
      · rintro ⟨h1, h2⟩ a bb (hm | he)
        · exact h1 a bb hm
        · cases he
          exact h2
      · intro hh
        exact ⟨fun a bb hm => hh a bb (Or.inl hm), hh y.1 y.2 (Or.inr rfl)⟩

theorem insert_order_order_price_map (b : OrderBook) (i : Int) (p : ℚ) :
    (b.insert_order i p).order_price_map
      = match alookup i b.order_price_map with
        | some _ => b.order_price_map
        | none => (i, p) :: b.order_price_map := by
  cases ho : alookup i b.order_price_map with
  | some q => simp [OrderBook.insert_order, ho]
  | none =>
    cases hp : alookup p b.price_count_map with
    | none => simp [OrderBook.insert_order, ho, hp]
    | some c => simp [OrderBook.insert_order, ho, hp]

theorem insert_order_mem_noop {b : OrderBook} {i : Int} {q : ℚ}
    (h : alookup i b.order_price_map = some q) (p' : ℚ) : b.insert_order i p' = b := by
  simp [OrderBook.insert_order, h]

theorem alookup_insert_self (b : OrderBook) (i : Int) (p : ℚ) :
    alookup i (b.insert_order i p).order_price_map
      = match alookup i b.order_price_map with
        | some q => some q
        | none => some p := by
  rw [insert_order_order_price_map]
  cases ho : alookup i b.order_price_map with
  | some q => simp only [ho]
  | none =>
    simp only [ho]
    show (if i = i then some p else alookup i b.order_price_map) = some p
    rw [if_pos rfl]

theorem erase_order_order_price_map (b : OrderBook) (i : Int) :
    (b.erase_order i).order_price_map
      = match alookup i b.order_price_map with
        | none => b.order_price_map
        | some _ => aerase i b.order_price_map := by
  cases ho : alookup i b.order_price_map with
  | none => simp [OrderBook.erase_order, ho]
  | some p =>
    cases hp : alookup p b.price_count_map with
    | none => simp [OrderBook.erase_order, ho, hp]
    | some c =>
      by_cases hc : c - 1 ≤ 0 <;> simp [OrderBook.erase_order, ho, hp, hc]

theorem erase_order_not_mem_noop {b : OrderBook} {i : Int}
    (h : alookup i b.order_price_map = none) : b.erase_order i = b := by
  simp [OrderBook.erase_order, h]

theorem maxKey_eq_listMaxQ {β : Type} (l : List (ℚ × β)) :
    maxKey l = listMaxQ (l.map Prod.fst) := by
  induction l with
  | nil => rfl
  | cons e t ih => simp [maxKey, listMaxQ, ih]

theorem listMaxQ_eq_none_iff (l : List ℚ) : listMaxQ l = none ↔ l = [] := by
  cases l with
  | nil => simp [listMaxQ]
  | cons q t =>
    simp only [listMaxQ]
    cases listMaxQ t <;> simp

theorem listMaxQ_mem : ∀ {l : List ℚ} {m : ℚ}, listMaxQ l = some m → m ∈ l := by
  intro l
  induction l with
  | nil => intro m h; exact Option.noConfusion h
  | cons q t ih =>
    intro m h
    simp only [listMaxQ] at h
    cases ht : listMaxQ t with
    | none =>
      rw [ht] at h
      simp at h
      simp [h]
    | some mt =>
      rw [ht] at h
      simp at h
      rcases max_choice q mt with hc | hc <;> rw [← h, hc]
      · simp
      · exact List.mem_cons_of_mem q (ih ht)

theorem le_listMaxQ : ∀ {l : List ℚ} {m x : ℚ}, listMaxQ l = some m → x ∈ l → x ≤ m := by
  intro l
  induction l with
  | nil => intro m x _ hx; exact absurd hx (List.not_mem_nil x)
  | cons q t ih =>
    intro m x h hx
    simp only [listMaxQ] at h
    cases ht : listMaxQ t with
    | none =>
      rw [ht] at h
      simp at h
      have : t = [] := (listMaxQ_eq_none_iff t).mp ht
      subst this
      simp at hx
      rw [hx, ← h]
    | some mt =>
      rw [ht] at h
      simp at h
      rcases List.mem_cons.mp hx with hq | hm
      · rw [hq, ← h]
        exact le_max_left q mt
      · calc x ≤ mt := ih ht hm
          _ ≤ max q mt := le_max_right q mt
          _ = m := h

theorem monoFrom_of_chain {x : Int × Option ℚ} {xs : List (Int × Option ℚ)}
    (h : List.Chain' (fun a b => a.1 ≤ b.1) (x :: xs)) : monoFrom x.1 xs := by
  induction xs generalizing x with
  | nil => trivial
  | cons y ys ih =>
    rw [List.chain'_cons] at h
    exact ⟨h.1, ih h.2⟩

theorem monoFrom_map_of_chain (p : ℚ) : ∀ {t : Int} {ts : List Int},
    List.Chain' (fun a b : Int => a < b) (t :: ts) →
    monoFrom t (ts.map (fun u => (u, some p))) := by
  intro t ts
  induction ts generalizing t with
  | nil => intro _; trivial
  | cons u us ih =>
    intro h
    rw [List.chain'_cons] at h
    exact ⟨le_of_lt h.1, ih h.2⟩

theorem next_price_eq_pos_nan {s : TWAP} {lp : ℚ} (hlp : s.last_price = some lp)
    (ha : s.avg_price = none) (hpos : s.total_time > 0) (t : Int) (p : Option ℚ) :
    s.next_price t p = ⟨p, t, none, s.total_time + (t - s.last_time)⟩ := by
  obtain ⟨slp, slt, sav, stt⟩ := s
  simp only [TWAP.last_price] at hlp
  subst hlp
  simp only [TWAP.avg_price] at ha
  subst ha
  simp only [TWAP.total_time] at hpos
  simp [TWAP.next_price, hpos]

theorem stepB {lo hi : ℚ} {s : TWAP} {t : Int} {p : Option ℚ}
    (h : InvB lo hi s) (hle : s.last_time ≤ t) (hp : priceOk lo hi p) :
    InvB lo hi (s.next_price t p) := by
  obtain ⟨h0, hav, hlast⟩ := h
  cases hlp : s.last_price with
  | none =>
    rw [next_price_eq_none hlp]
    exact ⟨h0, hav, hp⟩
  | some lp =>
    rw [hlp] at hlast
    have hl : lo ≤ lp ∧ lp ≤ hi := hlast
    by_cases hpos : s.total_time > 0
    · cases hav' : s.avg_price with
      | none =>
        rw [next_price_eq_pos_nan hlp hav' hpos]
        exact ⟨show (0 : Int) ≤ s.total_time + (t - s.last_time) from by omega, trivial, hp⟩
      | some a =>
        rw [hav'] at hav
        have ha : lo ≤ a ∧ a ≤ hi := hav
        rw [next_price_eq_pos hlp hav' hpos]
        refine ⟨show (0 : Int) ≤ s.total_time + (t - s.last_time) from by omega, ?_, hp⟩
        show lo ≤ a / ((s.total_time + (t - s.last_time) : Int) : ℚ) * (s.total_time : ℚ)
            + lp / ((s.total_time + (t - s.last_time) : Int) : ℚ) * ((t - s.last_time : Int) : ℚ)
          ∧ a / ((s.total_time + (t - s.last_time) : Int) : ℚ) * (s.total_time : ℚ)
            + lp / ((s.total_time + (t - s.last_time) : Int) : ℚ) * ((t - s.last_time : Int) : ℚ)
            ≤ hi
        have hT : (0 : ℚ) < (s.total_time : ℚ) := by exact_mod_cast hpos
        have hD : (0 : ℚ) ≤ ((t - s.last_time : Int) : ℚ) := by
          have hd : (0 : Int) ≤ t - s.last_time := by omega
          exact_mod_cast hd
        have hN : (0 : ℚ) < (s.total_time : ℚ) + ((t - s.last_time : Int) : ℚ) := by
          linarith
        rw [show a / ((s.total_time + (t - s.last_time) : Int) : ℚ) * (s.total_time : ℚ)
              + lp / ((s.total_time + (t - s.last_time) : Int) : ℚ) * ((t - s.last_time : Int) : ℚ)
            = (a * (s.total_time : ℚ) + lp * ((t - s.last_time : Int) : ℚ))
              / ((s.total_time : ℚ) + ((t - s.last_time : Int) : ℚ)) from by push_cast; ring]
        constructor
        · rw [le_div_iff₀ hN]
          linarith [mul_le_mul_of_nonneg_right ha.1 hT.le,
            mul_le_mul_of_nonneg_right hl.1 hD]
        · rw [div_le_iff₀ hN]
          linarith [mul_le_mul_of_nonneg_right ha.2 hT.le,
            mul_le_mul_of_nonneg_right hl.2 hD]
    · rw [next_price_eq_zero hlp hpos]
      refine ⟨show (0 : Int) ≤ t - s.last_time from by omega, ?_, hp⟩
      show lo ≤ lp ∧ lp ≤ hi
      exact hl

theorem runB {lo hi : ℚ} : ∀ (samples : List (Int × Option ℚ)) (s : TWAP),
    InvB lo hi s → monoFrom s.last_time samples →
    (∀ x ∈ samples, priceOk lo hi x.2) →
    InvB lo hi (TWAP.runFrom s samples) := by
  intro samples
  induction samples with
  | nil => exact fun s h _ _ => h
  | cons x xs ih =>
    intro s h hm hp
    obtain ⟨hm1, hm2⟩ := hm
    have hs1 : InvB lo hi (s.next_price x.1 x.2) :=
      stepB h hm1 (hp x (List.mem_cons_self x xs))
    have hm2' : monoFrom ((s.next_price x.1 x.2).last_time) xs := hm2
    exact ih (s.next_price x.1 x.2) hs1 hm2' (fun y hy => hp y (List.mem_cons_of_mem x hy))

theorem stepConst {p : ℚ} {s : TWAP} {t : Int} (h : InvConst p s) (hle : s.last_time ≤ t) :
    InvConst p (s.next_price t (some p)) := by
  obtain ⟨hlp, hav, h0⟩ := h
  by_cases hpos : s.total_time > 0
  · rw [next_price_eq_pos hlp hav hpos]
    refine ⟨rfl, ?_, show (0 : Int) ≤ s.total_time + (t - s.last_time) from by omega⟩
    show some (p / ((s.total_time + (t - s.last_time) : Int) : ℚ) * (s.total_time : ℚ)
        + p / ((s.total_time + (t - s.last_time) : Int) : ℚ) * ((t - s.last_time : Int) : ℚ))
      = some p
    congr 1
    have hN : ((s.total_time + (t - s.last_time) : Int) : ℚ) ≠ 0 := by
      have hn : (0 : Int) < s.total_time + (t - s.last_time) := by omega
      have : (0 : ℚ) < ((s.total_time + (t - s.last_time) : Int) : ℚ) := by exact_mod_cast hn
      exact ne_of_gt this
    have hNe : ((s.total_time + (t - s.last_time) : Int) : ℚ)
        = (s.total_time : ℚ) + ((t - s.last_time : Int) : ℚ) := by push_cast; ring
    rw [show p / ((s.total_time + (t - s.last_time) : Int) : ℚ) * (s.total_time : ℚ)
          + p / ((s.total_time + (t - s.last_time) : Int) : ℚ) * ((t - s.last_time : Int) : ℚ)
        = p * ((s.total_time : ℚ) + ((t - s.last_time : Int) : ℚ))
          / ((s.total_time + (t - s.last_time) : Int) : ℚ) from by ring]
    rw [← hNe]
    exact mul_div_cancel_right₀ p hN
  · rw [next_price_eq_zero hlp hpos]
    exact ⟨rfl, rfl, show (0 : Int) ≤ t - s.last_time from by omega⟩

theorem runConst {p : ℚ} : ∀ (samples : List (Int × Option ℚ)) (s : TWAP),
    InvConst p s → monoFrom s.last_time samples → (∀ x ∈ samples, x.2 = some p) →
    InvConst p (TWAP.runFrom s samples) := by
  intro samples
  induction samples with
  | nil => exact fun s h _ _ => h
  | cons x xs ih =>
    intro s h hm hp
    obtain ⟨hm1, hm2⟩ := hm
    have hx : x.2 = some p := hp x (List.mem_cons_self x xs)
    have hs1 : InvConst p (s.next_price x.1 x.2) := by
      rw [hx]
      exact stepConst h hm1
    have hm2' : monoFrom ((s.next_price x.1 x.2).last_time) xs := hm2
    exact ih (s.next_price x.1 x.2) hs1 hm2' (fun y hy => hp y (List.mem_cons_of_mem x hy))

/-- C1: TWAP fold step.  For every call `next_price(time, price)` from a state
whose previously recorded price is a valid number `lp` (and whose elapsed time
is non-negative, as in every state the running program can reach), with
`dt = time - last_time`: if `elapsed_time = 0` then afterwards the running
average equals the previous price and the elapsed time equals `dt`; otherwise
the running average becomes
`avg * (elapsed / (elapsed + dt)) + lp * (dt / (elapsed + dt))` and the
elapsed time becomes `elapsed + dt`. -/
theorem twap_fold_step_c1 (s : TWAP) (time : Int) (price : Option ℚ) (lp : ℚ)
    (hlp : s.last_price = some lp) (h0 : 0 ≤ s.total_time) :
    (s.total_time = 0 →
      (s.next_price time price).avg_price = some lp ∧
      (s.next_price time price).total_time = time - s.last_time) ∧
    (∀ a : ℚ, s.avg_price = some a → s.total_time ≠ 0 →
      (s.next_price time price).avg_price
        = some (a * ((s.total_time : ℚ)
              / ((s.total_time : ℚ) + ((time : ℚ) - (s.last_time : ℚ))))
            + lp * (((time : ℚ) - (s.last_time : ℚ))
              / ((s.total_time : ℚ) + ((time : ℚ) - (s.last_time : ℚ))))) ∧
      (s.next_price time price).total_time = s.total_time + (time - s.last_time)) := by
  constructor
  · intro ht
    have hng : ¬ s.total_time > 0 := by omega
    rw [next_price_eq_zero hlp hng]
    exact ⟨rfl, rfl⟩
  · intro a ha hne
    have hpos : s.total_time > 0 := by omega
    rw [next_price_eq_pos hlp ha hpos]
    refine ⟨?_, rfl⟩
    show some _ = some _
    congr 1
    push_cast
    ring

/-- Witness for C1, at the state reached after one valid sample. -/
theorem twap_fold_step_c1_witness :
    ((TWAP.mk (some 10) 1000 none 0).next_price 2000 (some 13)).avg_price = some 10 ∧
    ((TWAP.mk (some 10) 1000 none 0).next_price 2000 (some 13)).total_time = 1000 := by
  have h := twap_fold_step_c1 (TWAP.mk (some 10) 1000 none 0) 2000 (some 13) 10 rfl
    (le_refl 0)
  have h2 := h.1 rfl
  refine ⟨h2.1, ?_⟩
  rw [h2.2]
  norm_num

/-- C2: dual-map consistency invariant.  After every sequence of
`insert_order`/`erase_order` calls starting from a fresh `OrderBook`, every
price stored in `price_count_map_` carries exactly the number of entries of
`order_price_map_` with that price, that count is strictly positive, and the
counts sum to the number of entries of `order_price_map_`. -/
theorem dual_map_invariant_c2 (ops : List BookOp) :
    (∀ (p : ℚ) (c : Int),
      alookup p (applyOps OrderBook.empty ops).price_count_map = some c →
      c = cntAt p (applyOps OrderBook.empty ops).order_price_map ∧ 0 < c) ∧
    sumCounts (applyOps OrderBook.empty ops).price_count_map
      = ((applyOps OrderBook.empty ops).order_price_map.length : Int) := by
  obtain ⟨hno, hnc, hcnt, hsum⟩ := consistent_applyOps OrderBook.empty ops consistent_empty
  refine ⟨fun p c hc => ?_, hsum⟩
  have hh := hcnt p
  rw [hc] at hh
  by_cases hz : cntAt p (applyOps OrderBook.empty ops).order_price_map = 0
  · rw [if_pos hz] at hh
    exact Option.noConfusion hh
  · rw [if_neg hz] at hh
    have hcv : c = cntAt p (applyOps OrderBook.empty ops).order_price_map :=
      Option.some.inj hh
    have hnn := cntAt_nonneg p (applyOps OrderBook.empty ops).order_price_map
    exact ⟨hcv, by omega⟩

/-- Witness for C2, after a single insert. -/
theorem dual_map_invariant_c2_witness :
    (1 : Int) = cntAt 10 (applyOps OrderBook.empty [BookOp.insert 1 10]).order_price_map ∧
    (0 : Int) < 1 := by
  apply (dual_map_invariant_c2 [BookOp.insert 1 10]).1 10 1
  norm_num [applyOps, applyOp, OrderBook.insert_order, OrderBook.empty, alookup]

/-- C3: `max_price` correctness.  For every reachable `OrderBook` state,
`max_price()` returns the sentinel exactly on an empty book, otherwise the
maximum price over all live orders; concretely, after inserting prices
{10, 13, 13} it returns 13, and after additionally erasing both orders
at 13 it returns 10. -/
theorem max_price_correct_c3 (ops : List BookOp) :
    ((applyOps OrderBook.empty ops).order_price_map = [] →
      (applyOps OrderBook.empty ops).max_price = none) ∧
    ((applyOps OrderBook.empty ops).order_price_map ≠ [] →
      ∃ m, (applyOps OrderBook.empty ops).max_price = some m ∧
        m ∈ (applyOps OrderBook.empty ops).order_price_map.map Prod.snd ∧
        ∀ q ∈ (applyOps OrderBook.empty ops).order_price_map.map Prod.snd, q ≤ m) ∧
    (((OrderBook.empty.insert_order 100 10).insert_order 101 13).insert_order
      102 13).max_price = some 13 ∧
    (((((OrderBook.empty.insert_order 100 10).insert_order 101 13).insert_order
      102 13).erase_order 101).erase_order 102).max_price = some 10 := by
  obtain ⟨hno, hnc, hcnt, hsum⟩ := consistent_applyOps OrderBook.empty ops consistent_empty
  have hmem : ∀ q : ℚ,
      q ∈ (applyOps OrderBook.empty ops).price_count_map.map Prod.fst ↔
      q ∈ (applyOps OrderBook.empty ops).order_price_map.map Prod.snd := by
    intro q
    rw [← cntAt_ne_zero_iff]
    constructor
    · intro hq hz
      have hh := hcnt q
      rw [if_pos hz] at hh
      exact (alookup_eq_none.mp hh) hq
    · intro hz
      have hh := hcnt q
      rw [if_neg hz] at hh
      by_contra hq
      rw [alookup_eq_none.mpr hq] at hh
      exact Option.noConfusion hh
  refine ⟨?_, ?_, ?_, ?_⟩
  · intro hemp
    rw [OrderBook.max_price, maxKey_eq_listMaxQ, listMaxQ_eq_none_iff]
    cases hK : (applyOps OrderBook.empty ops).price_count_map.map Prod.fst with
    | nil => rfl
    | cons k ks =>
      have hk : k ∈ (applyOps OrderBook.empty ops).price_count_map.map Prod.fst := by
        rw [hK]
        exact List.mem_cons_self _ _
      rw [hmem k, hemp] at hk
      simp at hk
  · intro hne
    obtain ⟨x, hx⟩ := List.exists_mem_of_ne_nil _ hne
    have he : x.2 ∈ (applyOps OrderBook.empty ops).order_price_map.map Prod.snd :=
      List.mem_map_of_mem Prod.snd hx
    have hek := (hmem x.2).mpr he
    cases hM : listMaxQ ((applyOps OrderBook.empty ops).price_count_map.map Prod.fst) with
    | none =>
      rw [listMaxQ_eq_none_iff] at hM
      rw [hM] at hek
      exact absurd hek (List.not_mem_nil _)
    | some m =>
      refine ⟨m, ?_, ?_, ?_⟩
      · rw [OrderBook.max_price, maxKey_eq_listMaxQ, hM]
      · exact (hmem m).mp (listMaxQ_mem hM)
      · intro q hq
        exact le_listMaxQ hM ((hmem q).mpr hq)
  · norm_num [OrderBook.empty, OrderBook.insert_order, OrderBook.max_price,
      alookup, aupdate, maxKey]
  · norm_num [OrderBook.empty, OrderBook.insert_order, OrderBook.erase_order,
      OrderBook.max_price, alookup, aupdate, aerase, maxKey]

/-- Witness for C3: the empty book has no max price. -/
theorem max_price_correct_c3_witness :
    (applyOps OrderBook.empty []).max_price = none :=
  (max_price_correct_c3 []).1 rfl

/-- C4: gap property.  When the previously recorded price is the sentinel,
`next_price` changes only `last_time_` and `last_price_`, leaving
`avg_price_` and `total_time_` unchanged. -/
theorem twap_gap_c4 (s : TWAP) (time : Int) (price : Option ℚ)
    (h : s.last_price = none) :
    s.next_price time price = { s with last_price := price, last_time := time } ∧
    (s.next_price time price).avg_price = s.avg_price ∧
    (s.next_price time price).total_time = s.total_time := by
  rw [next_price_eq_none h]
  refine ⟨?_, rfl, rfl⟩
  cases s
  rfl

/-- Witness for C4, at the fresh TWAP state. -/
theorem twap_gap_c4_witness :
    TWAP.init.next_price 5 (some 3)
      = { TWAP.init with last_price := some 3, last_time := 5 } :=
  (twap_gap_c4 TWAP.init 5 (some 3) rfl).1

/-- C5 counterexample: on the golden sample sequence the running average
after the fourth call is 23/2 = 11.5, not the 12.0 the claim lists. -/
theorem golden_trace_c5_counterexample :
    (runTWAP (goldenSamples.take 4)).avg_price = some (23 / 2) ∧
    ¬ (runTWAP (goldenSamples.take 4)).avg_price = some 12 := by
  constructor
  · norm_num [goldenSamples, runTWAP, TWAP.runFrom, TWAP.next_price, TWAP.init]
  · norm_num [goldenSamples, runTWAP, TWAP.runFrom, TWAP.next_price, TWAP.init]

/-- C5 (amended): the golden trace produces, after each call in order,
the averages NO_PRICE, NO_PRICE, 10, 11.5, 11.8, 10.45 — the values the
section 4.2 fold prescribes (the claim listed 12.0 for the fourth call). -/
theorem golden_trace_c5_amended :
    (runTWAP (goldenSamples.take 1)).avg_price = none ∧
    (runTWAP (goldenSamples.take 2)).avg_price = none ∧
    (runTWAP (goldenSamples.take 3)).avg_price = some 10 ∧
    (runTWAP (goldenSamples.take 4)).avg_price = some (23 / 2) ∧
    (runTWAP (goldenSamples.take 5)).avg_price = some (59 / 5) ∧
    (runTWAP goldenSamples).avg_price = some (209 / 20) := by
  refine ⟨?_, ?_, ?_, ?_, ?_, ?_⟩ <;>
    norm_num [goldenSamples, runTWAP, TWAP.runFrom, TWAP.next_price, TWAP.init]

/-- C6: the average is the sentinel exactly when no interval has been
integrated, i.e. when every sample strictly before the most recent one
carried the "no price" sentinel (each sample only being integrated once a
later sample closes its interval). -/
theorem twap_sentinel_c6 (samples : List (Int × Option ℚ))
    (hmono : List.Chain' (fun a b => a.1 ≤ b.1) samples) :
    ((runTWAP samples).avg_price = none ↔ ∀ x ∈ samples.dropLast, x.2 = none) :=
  avg_none_iff samples

/-- Witness for C6 on a two-sample run whose first sample is the sentinel. -/
theorem twap_sentinel_c6_witness :
    (runTWAP [((1000 : Int), (none : Option ℚ)), (2000, some 10)]).avg_price = none :=
  (twap_sentinel_c6 [(1000, none), (2000, some 10)]
    (by norm_num [List.chain'_cons])).mpr (by simp)

/-- C7 counterexample: from a state where order 1 already exists at price 5,
`insert_order(1, 3)` followed by `insert_order(1, 4)` leaves the price at 5,
not at 3 as the claim (quantified over every state) would require. -/
theorem insert_first_wins_c7_counterexample :
    alookup 1 (((OrderBook.empty.insert_order 1 5).insert_order 1 3).insert_order
      1 4).order_price_map = some 5 ∧
    ¬ alookup 1 (((OrderBook.empty.insert_order 1 5).insert_order 1 3).insert_order
      1 4).order_price_map = some 3 := by
  constructor
  · norm_num [OrderBook.empty, OrderBook.insert_order, alookup, aupdate]
  · norm_num [OrderBook.empty, OrderBook.insert_order, alookup, aupdate]

/-- C7 (amended): the second insert with the same id is always a complete
no-op, and when the id was not present before the first insert the order's
price ends at the first price `p` (first write wins from a state not already
holding the id). -/
theorem insert_idem_c7_amended (b : OrderBook) (i : Int) (p p2 : ℚ) :
    (b.insert_order i p).insert_order i p2 = b.insert_order i p ∧
    (alookup i b.order_price_map = none →
      alookup i ((b.insert_order i p).insert_order i p2).order_price_map = some p) := by
  have hsome : ∃ q, alookup i (b.insert_order i p).order_price_map = some q := by
    rw [alookup_insert_self]
    cases alookup i b.order_price_map with
    | some q => exact ⟨q, rfl⟩
    | none => exact ⟨p, rfl⟩
  obtain ⟨q, hq⟩ := hsome
  have heq := insert_order_mem_noop hq p2
  refine ⟨heq, fun h0 => ?_⟩
  rw [heq, alookup_insert_self]
  simp only [h0]

/-- Witness for C7 (amended) from the empty book. -/
theorem insert_idem_c7_amended_witness :
    alookup 1 ((OrderBook.empty.insert_order 1 5).insert_order 1 7).order_price_map
      = some 5 :=
  (insert_idem_c7_amended OrderBook.empty 1 5 7).2 rfl

/-- C8: constant-price round trip.  Feeding a fresh TWAP a constant price `p`
at strictly increasing times (at least two samples) yields an average of `p`;
since every prefix of length at least 2 of such a sequence again satisfies the
hypotheses, the average is `p` after the second and every later sample. -/
theorem const_price_c8 (p : ℚ) (ts : List Int)
    (hchain : List.Chain' (fun a b : Int => a < b) ts) (hlen : 2 ≤ ts.length) :
    (runTWAP (ts.map (fun t => (t, some p)))).avg_price = some p := by
  cases ts with
  | nil => simp at hlen
  | cons t1 ts' =>
    cases ts' with
    | nil => simp at hlen
    | cons t2 rest =>
      rw [List.chain'_cons] at hchain
      obtain ⟨h12, hchain2⟩ := hchain
      have hs2 : runTWAP ((t1 :: t2 :: rest).map (fun t => (t, some p)))
          = TWAP.runFrom (⟨some p, t2, some p, t2 - t1⟩ : TWAP)
              (rest.map (fun t => (t, some p))) := by
        show TWAP.runFrom ((TWAP.init.next_price t1 (some p)).next_price t2 (some p))
          (rest.map (fun t => (t, some p))) = _
        congr 1
      rw [hs2]
      have hrun := runConst (rest.map (fun t => (t, some p)))
        (⟨some p, t2, some p, t2 - t1⟩ : TWAP)
        ⟨rfl, rfl, show (0 : Int) ≤ t2 - t1 from by omega⟩
        (monoFrom_map_of_chain p hchain2)
        (fun x hx => by obtain ⟨u, _, rfl⟩ := List.mem_map.mp hx; rfl)
      exact hrun.2.1

/-- Witness for C8 on three strictly increasing times. -/
theorem const_price_c8_witness :
    (runTWAP (([1, 2, 3] : List Int).map (fun t => (t, some (7 : ℚ))))).avg_price
      = some 7 :=
  const_price_c8 7 [1, 2, 3] (by norm_num [List.chain'_cons]) (by norm_num)

/-- C9: erasing an absent id is a complete no-op, and (on any well-formed
book state, as every state of the two `std::map` fields is) erasing the same
id twice in a row equals erasing it once. -/
theorem erase_noop_c9 (b : OrderBook) (i : Int) (hWF : b.WF) :
    (alookup i b.order_price_map = none → b.erase_order i = b) ∧
    (b.erase_order i).erase_order i = b.erase_order i := by
  refine ⟨fun h => erase_order_not_mem_noop h, ?_⟩
  cases ho : alookup i b.order_price_map with
  | none =>
    rw [erase_order_not_mem_noop ho]
    exact erase_order_not_mem_noop ho
  | some q =>
    have hlook : alookup i (b.erase_order i).order_price_map = none := by
      rw [erase_order_order_price_map]
      simp only [ho]
      exact alookup_aerase_self hWF.1
    exact erase_order_not_mem_noop hlook

/-- Witness for C9: erasing id 2 from a book holding only id 1. -/
theorem erase_noop_c9_witness :
    (OrderBook.empty.insert_order 1 10).erase_order 2
      = OrderBook.empty.insert_order 1 10 := by
  have h := erase_noop_c9 (OrderBook.empty.insert_order 1 10) 2
    (by constructor <;> norm_num [OrderBook.empty, OrderBook.insert_order, alookup])
  exact h.1 (by norm_num [OrderBook.empty, OrderBook.insert_order, alookup])

/-- C10: convex-combination bound.  Over any run with non-decreasing times
whose valid prices lie in `[lo, hi]`, a defined average lies in `[lo, hi]`;
and from any state with a defined average, one further `next_price` call
never returns the average to the sentinel. -/
theorem convex_bound_c10 (lo hi : ℚ) (samples : List (Int × Option ℚ))
    (hchain : List.Chain' (fun a b => a.1 ≤ b.1) samples)
    (hprices : ∀ x ∈ samples, priceOk lo hi x.2) :
    (∀ a : ℚ, (runTWAP samples).avg_price = some a → lo ≤ a ∧ a ≤ hi) ∧
    (∀ (s : TWAP) (t : Int) (p : Option ℚ),
      s.avg_price ≠ none → (s.next_price t p).avg_price ≠ none) := by
  constructor
  · intro a ha
    cases samples with
    | nil => exact Option.noConfusion ha
    | cons x xs =>
      have hx : priceOk lo hi x.2 := hprices x (List.mem_cons_self x xs)
      have hinv1 : InvB lo hi (TWAP.init.next_price x.1 x.2) := by
        rw [next_price_eq_none rfl]
        exact ⟨le_refl 0, trivial, hx⟩
      have hrun := runB xs (TWAP.init.next_price x.1 x.2) hinv1
        (monoFrom_of_chain hchain)
        (fun y hy => hprices y (List.mem_cons_of_mem x hy))
      have hav := hrun.2.1
      rw [show runTWAP (x :: xs)
          = TWAP.runFrom (TWAP.init.next_price x.1 x.2) xs from rfl] at ha
      rw [ha] at hav
      exact hav
  · intro s t p h
    cases hlp : s.last_price with
    | none =>
      rw [next_price_eq_none hlp]
      exact h
    | some lp =>
      by_cases hpos : s.total_time > 0
      · cases hav : s.avg_price with
        | none => exact absurd hav h
        | some a =>
          rw [next_price_eq_pos hlp hav hpos]
          exact fun hc => Option.noConfusion hc
      · rw [next_price_eq_zero hlp hpos]
        exact fun hc => Option.noConfusion hc

/-- Witness for C10 with prices in [10, 12]. -/
theorem convex_bound_c10_witness :
    (10 : ℚ) ≤ 10 ∧ (10 : ℚ) ≤ 12 :=
  (convex_bound_c10 10 12 [(0, some 10), (5, some 12)]
    (by norm_num [List.chain'_cons])
    (by
      intro x hx
      rcases List.mem_cons.mp hx with rfl | hx2
      · exact ⟨le_refl 10, by norm_num⟩
      · rcases List.mem_cons.mp hx2 with rfl | hx3
        · exact ⟨by norm_num, le_refl 12⟩
        · exact absurd hx3 (List.not_mem_nil x))).1 10
    (by norm_num [runTWAP, TWAP.runFrom, TWAP.next_price, TWAP.init])

end AkuzCpp
